import Mathlib

/-!
# A shallow embedding of a minimal reactive-state engine (jotai-from-scratch)

The engine keeps four pieces of global state (`useAtom.ts`):
`currentlyComputingAtom`, `subscriptions`, `dependencies` and
`atomPrimitiveValues`.  Atoms are either primitive (their value lives in
`atomPrimitiveValues`) or derived (a read function, plus an optional write
handler).  Reads of derived atoms run the read function with a tracking
accessor `get` that records dependency edges; writes enter through
`setValue` and propagate through `updateAtom` / `updatePrimitiveAtom` /
`updateReadonlyDerivedAtom`.

User-supplied read functions and write handlers are embedded deeply as
small command trees (`ReadExpr`, `WriteExpr`) whose only effects are the
ones the engine's accessors provide (`get`, and for handlers the setter);
pure computation between accessor calls is an arbitrary Lean function in
the continuation.  JavaScript `Map`s become insertion-ordered association
lists, JavaScript `Set`s become insertion-ordered duplicate-free lists.
Subscription callbacks are opaque: firing one appends its identifier to an
event log.  Recursion in the engine (reads of derived atoms, propagation
over a possibly cyclic dependency graph, re-entrant write handlers) is
bounded by explicit fuel; running out of fuel models divergence.
-/

namespace Jotai

/-- A JavaScript value as far as the engine is concerned: `undefined`
(what `Map.get` yields for a missing key) or data, modelled as an
integer. -/
inductive Value where
| undef : Value
| int : Int → Value
deriving DecidableEq, Repr

abbrev AtomId := Nat

abbrev CallbackId := Nat

/-- Deep embedding of a user read function `(get) => ...`: it may finish
with a value, call `get` on an atom and continue with the result, or throw
an error. -/
inductive ReadExpr where
| pure : Value → ReadExpr
| getA : AtomId → (Value → ReadExpr) → ReadExpr
| throwE : Value → ReadExpr

/-- Deep embedding of a user write handler body `(get, set, newValue) => ...`:
a sequence of `get` and `set` calls. -/
inductive WriteExpr where
| done : WriteExpr
| getW : AtomId → (Value → WriteExpr) → WriteExpr
| setW : AtomId → Value → WriteExpr → WriteExpr

/-- What kind of atom an identifier denotes: `atom(value)` makes a
primitive atom, `atom(read)` / `atom(read, write)` make derived atoms. -/
inductive AtomDef where
| primitive : AtomDef
| derived : ReadExpr → Option (Value → WriteExpr) → AtomDef

/-- The fixed assignment of atom definitions to identifiers. -/
abbrev Env := AtomId → AtomDef

def AtomDef.isDerived : AtomDef → Bool
| .primitive => false
| .derived _ _ => true

/-- Insertion-ordered association list standing for a JavaScript `Map`
with atom identifiers as keys. -/
def mapGet {α : Type} : List (Nat × α) → Nat → Option α
| [], _ => none
| (k, v) :: rest, k' => if k = k' then some v else mapGet rest k'

/-- `Map.set`: overwrite in place if the key exists, else append. -/
def mapSet {α : Type} : List (Nat × α) → Nat → α → List (Nat × α)
| [], k, v => [(k, v)]
| (k', v') :: rest, k, v =>
  if k' = k then (k, v) :: rest else (k', v') :: mapSet rest k v

/-- `Set.add`: insertion-ordered, idempotent. -/
def setAdd (s : List Nat) (x : Nat) : List Nat :=
  if x ∈ s then s else s ++ [x]

/-- `Set.delete`. -/
def setDel (s : List Nat) (x : Nat) : List Nat := s.erase x

/-- The body of the tracking accessor's bookkeeping:
`if (!dependencies.has(atom)) dependencies.set(atom, new Set());
 dependencies.get(atom)!.add(currentlyComputingAtom)`. -/
def depAdd (deps : List (AtomId × List AtomId)) (atom c : AtomId) :
    List (AtomId × List AtomId) :=
  match mapGet deps atom with
  | none => mapSet deps atom (setAdd [] c)
  | some ds => mapSet deps atom (setAdd ds c)

/-- The engine's global mutable state, plus an event log of fired
subscription callbacks. -/
structure EngineState where
  currentlyComputingAtom : Option AtomId
  subscriptions : List (AtomId × List CallbackId)
  dependencies : List (AtomId × List AtomId)
  atomPrimitiveValues : List (AtomId × Value)
  firedLog : List CallbackId
deriving DecidableEq, Repr

/-- The errors a call into the engine can surface: the read-only write
rejection thrown by `setValue`, or an error thrown by a user read
function. -/
inductive JsError where
| readOnly : JsError
| userError : Value → JsError
deriving DecidableEq, Repr

/-- Outcome of a call: normal return with the new state, a thrown error
with the state at the throw point, or divergence (out of fuel). -/
inductive Res (α : Type) where
| ok : α → EngineState → Res α
| thrown : JsError → EngineState → Res α
| outOfFuel : Res α
deriving DecidableEq, Repr

/-- `subscriptions.get(atom)?.forEach((subscription) => subscription())`:
append the callbacks registered for `atom` to the event log. -/
def fireSubs (s : EngineState) (atom : AtomId) : EngineState :=
  match mapGet s.subscriptions atom with
  | none => s
  | some cbs => { s with firedLog := s.firedLog ++ cbs }

mutual

/-- The tracking accessor `get`: record an edge `atom → currentlyComputingAtom`
when a derived atom is being computed, then resolve via `getAtomValue`. -/
def get (fuel : Nat) (env : Env) (atom : AtomId) (s : EngineState) : Res Value :=
match fuel with
| 0 => .outOfFuel
| fuel + 1 =>
  match s.currentlyComputingAtom with
  | some c =>
      getAtomValue fuel env atom
        { s with dependencies := depAdd s.dependencies atom c }
  | none => getAtomValue fuel env atom s

/-- `getAtomValue`: primitive atoms read the value store directly; derived
atoms save the computing context, set it to this atom, run the read
function, and unconditionally restore the context (the `finally`). -/
def getAtomValue (fuel : Nat) (env : Env) (atom : AtomId) (s : EngineState) :
    Res Value :=
match fuel with
| 0 => .outOfFuel
| fuel + 1 =>
  match env atom with
  | .primitive => .ok ((mapGet s.atomPrimitiveValues atom).getD .undef) s
  | .derived rd _ =>
    match runRead fuel env rd { s with currentlyComputingAtom := some atom } with
    | .ok v s1 => .ok v { s1 with currentlyComputingAtom := s.currentlyComputingAtom }
    | .thrown e s1 =>
        .thrown e { s1 with currentlyComputingAtom := s.currentlyComputingAtom }
    | .outOfFuel => .outOfFuel

/-- Run a user read function body: its `get` calls go through the tracking
accessor. -/
def runRead (fuel : Nat) (env : Env) (r : ReadExpr) (s : EngineState) : Res Value :=
match fuel with
| 0 => .outOfFuel
| fuel + 1 =>
  match r with
  | .pure v => .ok v s
  | .throwE v => .thrown (.userError v) s
  | .getA a k =>
    match get fuel env a s with
    | .ok v s1 => runRead fuel env (k v) s1
    | .thrown e s1 => .thrown e s1
    | .outOfFuel => .outOfFuel

/-- `updateAtom`: the setter handed to write handlers.  Primitive atoms
get a real update; any derived atom is sent to
`updateReadonlyDerivedAtom`, the new value being dropped. -/
def updateAtom (fuel : Nat) (env : Env) (atom : AtomId) (newValue : Value)
    (s : EngineState) : Option EngineState :=
match fuel with
| 0 => none
| fuel + 1 =>
  match env atom with
  | .primitive => updatePrimitiveAtom fuel env atom newValue s
  | .derived _ _ => updateReadonlyDerivedAtom fuel env atom s

/-- `updatePrimitiveAtom`: store the new value, fire this atom's
subscriptions, then recurse into every recorded dependent. -/
def updatePrimitiveAtom (fuel : Nat) (env : Env) (atom : AtomId)
    (newValue : Value) (s : EngineState) : Option EngineState :=
match fuel with
| 0 => none
| fuel + 1 =>
  let s1 := fireSubs
    { s with atomPrimitiveValues := mapSet s.atomPrimitiveValues atom newValue }
    atom
  match mapGet s1.dependencies atom with
  | none => some s1
  | some dependentAtoms => updateDerivedList fuel env dependentAtoms s1

/-- `updateReadonlyDerivedAtom`: fire this atom's subscriptions (no value
is computed or stored), then recurse into every recorded dependent. -/
def updateReadonlyDerivedAtom (fuel : Nat) (env : Env) (atom : AtomId)
    (s : EngineState) : Option EngineState :=
match fuel with
| 0 => none
| fuel + 1 =>
  let s1 := fireSubs s atom
  match mapGet s1.dependencies atom with
  | none => some s1
  | some dependentAtoms => updateDerivedList fuel env dependentAtoms s1

/-- `dependentAtoms.forEach(...)`: sequential traversal of the dependent
set. -/
def updateDerivedList (fuel : Nat) (env : Env) (atoms : List AtomId)
    (s : EngineState) : Option EngineState :=
match fuel with
| 0 => none
| fuel + 1 =>
  match atoms with
  | [] => some s
  | d :: rest =>
    match updateReadonlyDerivedAtom fuel env d s with
    | none => none
    | some s1 => updateDerivedList fuel env rest s1

/-- Run a user write handler body: `get` is the tracking accessor, `set`
is `updateAtom`. -/
def runWrite (fuel : Nat) (env : Env) (w : WriteExpr) (s : EngineState) : Res Unit :=
match fuel with
| 0 => .outOfFuel
| fuel + 1 =>
  match w with
  | .done => .ok () s
  | .getW a k =>
    match get fuel env a s with
    | .ok v s1 => runWrite fuel env (k v) s1
    | .thrown e s1 => .thrown e s1
    | .outOfFuel => .outOfFuel
  | .setW a v k =>
    match updateAtom fuel env a v s with
    | none => .outOfFuel
    | some s1 => runWrite fuel env k s1

end

/-- The argument of the external setter: a plain value, or an updater
function of the current value. -/
inductive NextValue where
| val : Value → NextValue
| fn : (Value → Value) → NextValue

/-- Map a pure function over the value of an outcome (the updater-function
application in `setValue`). -/
def resMap (f : Value → Value) : Res Value → Res Value
| .ok v s => .ok (f v) s
| .thrown e s => .thrown e s
| .outOfFuel => .outOfFuel

/-- The dispatch half of `setValue`, applied to the outcome of resolving
`newValue`: derived with a write handler runs the handler (its setter
being `updateAtom`), primitive updates directly, derived without a
handler throws the read-only error. -/
def dispatchWrite (fuel : Nat) (env : Env) (atom : AtomId) : Res Value → Res Unit
| .outOfFuel => .outOfFuel
| .thrown e s1 => .thrown e s1
| .ok newValue s1 =>
  match env atom with
  | .derived _ (some w) => runWrite fuel env (w newValue) s1
  | .primitive =>
    match updateAtom fuel env atom newValue s1 with
    | some s2 => .ok () s2
    | none => .outOfFuel
  | .derived _ none => .thrown .readOnly s1

/-- `setValue`, the external write gateway: resolve an updater function
against the current value (`nextValue(getAtomValue(atom))`), then
dispatch. -/
def setValue (fuel : Nat) (env : Env) (atom : AtomId) (nextValue : NextValue)
    (s : EngineState) : Res Unit :=
match fuel with
| 0 => .outOfFuel
| fuel + 1 =>
  match nextValue with
  | .val v => dispatchWrite fuel env atom (.ok v s)
  | .fn f => dispatchWrite fuel env atom (resMap f (getAtomValue fuel env atom s))

/-- The subscribe half of `useAtom`: register a callback for an atom
(creating the set if absent; `Set.add` is idempotent). -/
def subscribe (s : EngineState) (atom : AtomId) (cb : CallbackId) : EngineState :=
  { s with subscriptions :=
      match mapGet s.subscriptions atom with
      | none => mapSet s.subscriptions atom (setAdd [] cb)
      | some cbs => mapSet s.subscriptions atom (setAdd cbs cb) }

/-- The cleanup function returned by subscribe:
`subscriptions.get(atom)?.delete(callback)`. -/
def unsubscribe (s : EngineState) (atom : AtomId) (cb : CallbackId) : EngineState :=
  { s with subscriptions :=
      match mapGet s.subscriptions atom with
      | none => s.subscriptions
      | some cbs => mapSet s.subscriptions atom (setDel cbs cb) }

/-- Constructing a primitive atom seeds its entry in the value store
(`atomPrimitiveValues.set(atom, configOrRead)`). -/
def constructPrimitive (s : EngineState) (atom : AtomId) (v : Value) : EngineState :=
  { s with atomPrimitiveValues := mapSet s.atomPrimitiveValues atom v }

/-- The empty engine state a fresh module starts with. -/
def initState : EngineState :=
  { currentlyComputingAtom := none
    subscriptions := []
    dependencies := []
    atomPrimitiveValues := []
    firedLog := [] }

/-- Whether the dependency graph records the edge `a → c`
("`c` depends on `a`"). -/
def depHas (deps : List (AtomId × List AtomId)) (a c : AtomId) : Bool :=
  match mapGet deps a with
  | none => false
  | some l => decide (c ∈ l)

/-- The callbacks currently registered for an atom (empty when the atom
has no entry in the observer registry). -/
def subsOf (s : EngineState) (atom : AtomId) : List CallbackId :=
  (mapGet s.subscriptions atom).getD []

/-- Value of an outcome that returned normally. -/
def resValue : Res Value → Option Value
| .ok v _ => some v
| _ => none

/-- State of an outcome that returned normally. -/
def resState {α : Type} : Res α → Option EngineState
| .ok _ s => some s
| _ => none

/-- Error and state of an outcome that threw. -/
def resThrown {α : Type} : Res α → Option (JsError × EngineState)
| .thrown e s => some (e, s)
| _ => none

/-- State of an outcome, with a default for divergence. -/
def stateAfter {α : Type} : Res α → EngineState → EngineState
| .ok _ s, _ => s
| .thrown _ s, _ => s
| .outOfFuel, d => d

/-- Computing context of an outcome, with a default for divergence. -/
def ctxAfter {α : Type} : Res α → Option AtomId → Option AtomId
| .ok _ s, _ => s.currentlyComputingAtom
| .thrown _ s, _ => s.currentlyComputingAtom
| .outOfFuel, d => d

/-- Restore a saved computing context in the state carried by an outcome
(the `finally` block of `getAtomValue`). -/
def restoreRes (c : Option AtomId) : Res Value → Res Value
| .ok v s => .ok v { s with currentlyComputingAtom := c }
| .thrown e s => .thrown e { s with currentlyComputingAtom := c }
| .outOfFuel => .outOfFuel

section MapLemmas

theorem mapGet_mapSet {α : Type} (m : List (Nat × α)) (k : Nat) (v : α)
    (k2 : Nat) :
    mapGet (mapSet m k v) k2 = if k = k2 then some v else mapGet m k2 := by
  induction m with
  | nil => simp [mapGet, mapSet]
  | cons hd tl ih =>
    obtain ⟨k', v'⟩ := hd
    by_cases h1 : k' = k
    · subst h1
      by_cases h2 : k' = k2 <;> simp [mapGet, mapSet, h2]
    · by_cases h2 : k' = k2
      · subst h2
        have : ¬ k = k' := fun h => h1 h.symm
        simp [mapGet, mapSet, h1, this]
      · simp [mapGet, mapSet, h1, h2, ih]

theorem mem_setAdd_self (l : List Nat) (x : Nat) : x ∈ setAdd l x := by
  unfold setAdd
  by_cases h : x ∈ l <;> simp [h]

theorem mem_setAdd_of_mem (l : List Nat) (x y : Nat) (h : y ∈ l) :
    y ∈ setAdd l x := by
  unfold setAdd
  by_cases hx : x ∈ l <;> simp [hx, h]

theorem mem_of_mem_setAdd (l : List Nat) (x y : Nat) (h : y ∈ setAdd l x) :
    y ∈ l ∨ y = x := by
  unfold setAdd at h
  by_cases hx : x ∈ l
  · simp [hx] at h
    exact Or.inl h
  · simp [hx] at h
    exact h

theorem depHas_depAdd_self (deps : List (AtomId × List AtomId))
    (atom c : AtomId) : depHas (depAdd deps atom c) atom c = true := by
  unfold depAdd
  cases h : mapGet deps atom with
  | none => simp [depHas, mapGet_mapSet, mem_setAdd_self]
  | some l => simp [depHas, mapGet_mapSet, mem_setAdd_self]

theorem depHas_depAdd_of_depHas (deps : List (AtomId × List AtomId))
    (atom c x y : AtomId) (h : depHas deps x y = true) :
    depHas (depAdd deps atom c) x y = true := by
  unfold depHas at h
  cases hx : mapGet deps x with
  | none => rw [hx] at h; exact absurd h (by simp)
  | some l =>
    rw [hx] at h
    have hy : y ∈ l := of_decide_eq_true h
    unfold depAdd
    cases ha : mapGet deps atom with
    | none =>
      by_cases hax : atom = x
      · subst hax; rw [ha] at hx; exact absurd hx (by simp)
      · simp [depHas, mapGet_mapSet, hax, hx, hy]
    | some l2 =>
      by_cases hax : atom = x
      · subst hax
        rw [ha] at hx
        obtain rfl : l2 = l := by injection hx
        simp [depHas, mapGet_mapSet, mem_setAdd_of_mem _ _ _ hy]
      · simp [depHas, mapGet_mapSet, hax, hx, hy]

theorem depHas_of_depHas_depAdd (deps : List (AtomId × List AtomId))
    (atom c x y : AtomId) (h : depHas (depAdd deps atom c) x y = true) :
    depHas deps x y = true ∨ (x = atom ∧ y = c) := by
  unfold depAdd at h
  cases ha : mapGet deps atom with
  | none =>
    rw [ha] at h
    unfold depHas at h
    rw [mapGet_mapSet] at h
    by_cases hax : atom = x
    · subst hax
      simp at h
      rcases mem_of_mem_setAdd _ _ _ h with hy | hy
      · exact absurd hy (by simp)
      · exact Or.inr ⟨rfl, hy⟩
    · simp [hax] at h
      left
      unfold depHas
      exact h
  | some l =>
    rw [ha] at h
    unfold depHas at h
    rw [mapGet_mapSet] at h
    by_cases hax : atom = x
    · subst hax
      simp at h
      rcases mem_of_mem_setAdd _ _ _ h with hy | hy
      · left; unfold depHas; rw [ha]; simpa using hy
      · exact Or.inr ⟨rfl, hy⟩
    · simp [hax] at h
      left
      unfold depHas
      exact h

end MapLemmas

/-- What the read path preserves of the engine state: values,
subscriptions, the callback log and (in the final state) the computing
context are untouched, and dependency edges are never removed. -/
def Keep (s s1 : EngineState) : Prop :=
  s1.currentlyComputingAtom = s.currentlyComputingAtom ∧
  s1.subscriptions = s.subscriptions ∧
  s1.atomPrimitiveValues = s.atomPrimitiveValues ∧
  s1.firedLog = s.firedLog ∧
  ∀ a c, depHas s.dependencies a c = true → depHas s1.dependencies a c = true

theorem keep_refl (s : EngineState) : Keep s s :=
  ⟨rfl, rfl, rfl, rfl, fun _ _ h => h⟩

theorem keep_trans {s s1 s2 : EngineState} (h1 : Keep s s1) (h2 : Keep s1 s2) :
    Keep s s2 := by
  obtain ⟨a1, b1, c1, d1, e1⟩ := h1
  obtain ⟨a2, b2, c2, d2, e2⟩ := h2
  exact ⟨a2.trans a1, b2.trans b1, c2.trans c1, d2.trans d1,
    fun a c h => e2 a c (e1 a c h)⟩

/-- The computing context, when set, always names a derived atom. -/
def CtxOk (env : Env) (s : EngineState) : Prop :=
  ∀ c, s.currentlyComputingAtom = some c → (env c).isDerived = true

/-- Every dependent recorded in the dependency graph is a derived atom. -/
def DepsOk (env : Env) (s : EngineState) : Prop :=
  ∀ a c, depHas s.dependencies a c = true → (env c).isDerived = true

/-- The engine's structural invariant. -/
def Inv (env : Env) (s : EngineState) : Prop := CtxOk env s ∧ DepsOk env s

/-- Joint postcondition of the read path (the tracking accessor `get`,
`getAtomValue`, and user read-function bodies): the state is `Keep`-related
to the input, the structural invariant is preserved, and the only errors
surfaced are user errors. -/
def ReadOut {α : Type} (env : Env) (s : EngineState) : Res α → Prop
| .ok _ s1 => Keep s s1 ∧ (Inv env s → Inv env s1)
| .thrown e s1 => Keep s s1 ∧ (Inv env s → Inv env s1) ∧ e ≠ JsError.readOnly
| .outOfFuel => True

theorem readOut_comp {α : Type} (env : Env) {s s1 : EngineState} {r : Res α}
    (hk : Keep s s1) (hi : Inv env s → Inv env s1) (h : ReadOut env s1 r) :
    ReadOut env s r := by
  cases r with
  | ok v s2 => exact ⟨keep_trans hk h.1, fun hv => h.2 (hi hv)⟩
  | thrown e s2 => exact ⟨keep_trans hk h.1, fun hv => h.2.1 (hi hv), h.2.2⟩
  | outOfFuel => exact trivial

theorem keep_depAdd (s : EngineState) (atom c : AtomId) :
    Keep s { s with dependencies := depAdd s.dependencies atom c } :=
  ⟨rfl, rfl, rfl, rfl, fun a c' h => depHas_depAdd_of_depHas _ _ _ _ _ h⟩

theorem inv_depAdd (env : Env) (s : EngineState) (atom c : AtomId)
    (hc : (env c).isDerived = true) (hv : Inv env s) :
    Inv env { s with dependencies := depAdd s.dependencies atom c } := by
  refine ⟨hv.1, ?_⟩
  intro a c' h
  rcases depHas_of_depHas_depAdd _ _ _ _ _ h with h' | ⟨_, rfl⟩
  · exact hv.2 a c' h'
  · exact hc

/-- The read path does not write values, fire callbacks or drop dependency
edges; it preserves the structural invariant; its errors come from user
read functions, never from the write gateway. -/
theorem readOut_main (fuel : Nat) (env : Env) :
    (∀ atom s, ReadOut env s (get fuel env atom s)) ∧
    (∀ atom s, ReadOut env s (getAtomValue fuel env atom s)) ∧
    (∀ r s, ReadOut env s (runRead fuel env r s)) := by
  induction fuel with
  | zero =>
    exact ⟨fun atom s => trivial, fun atom s => trivial, fun r s => trivial⟩
  | succ fuel ih =>
    obtain ⟨ihG, ihGA, ihR⟩ := ih
    refine ⟨fun atom s => ?_, fun atom s => ?_, fun r s => ?_⟩
    · -- the tracking accessor
      simp only [get]
      split
      next c hctx =>
        refine readOut_comp env (keep_depAdd s atom c) ?_ (ihGA atom _)
        intro hv
        refine ⟨hv.1, ?_⟩
        intro a c' h
        rcases depHas_of_depHas_depAdd _ _ _ _ _ h with h' | ⟨_, rfl⟩
        · exact hv.2 a c' h'
        · exact hv.1 _ hctx
      next hctx => exact ihGA atom s
    · -- getAtomValue
      simp only [getAtomValue]
      split
      · exact ⟨keep_refl s, id⟩
      next rd w henv =>
        split
        next v s2 hres =>
          have hread := ihR rd { s with currentlyComputingAtom := some atom }
          rw [hres] at hread
          obtain ⟨⟨hc1, hc2, hc3, hc4, hc5⟩, hi⟩ := hread
          refine ⟨⟨rfl, hc2, hc3, hc4, fun a c h => hc5 a c h⟩, ?_⟩
          intro hv
          have hv1 : Inv env { s with currentlyComputingAtom := some atom } := by
            refine ⟨?_, hv.2⟩
            intro c hc
            have hc' : some atom = some c := hc
            injection hc' with h
            subst h
            rw [henv]
            rfl
          have hv2 := hi hv1
          exact ⟨fun c hc => hv.1 c hc, hv2.2⟩
        next e s2 hres =>
          have hread := ihR rd { s with currentlyComputingAtom := some atom }
          rw [hres] at hread
          obtain ⟨⟨hc1, hc2, hc3, hc4, hc5⟩, hi, hne⟩ := hread
          refine ⟨⟨rfl, hc2, hc3, hc4, fun a c h => hc5 a c h⟩, ?_, hne⟩
          intro hv
          have hv1 : Inv env { s with currentlyComputingAtom := some atom } := by
            refine ⟨?_, hv.2⟩
            intro c hc
            have hc' : some atom = some c := hc
            injection hc' with h
            subst h
            rw [henv]
            rfl
          have hv2 := hi hv1
          exact ⟨fun c hc => hv.1 c hc, hv2.2⟩
        next hres => exact trivial
    · -- user read-function bodies
      cases r with
      | pure v =>
        simp only [runRead]
        exact ⟨keep_refl s, id⟩
      | throwE v =>
        simp only [runRead]
        exact ⟨keep_refl s, id, by simp⟩
      | getA a k =>
        simp only [runRead]
        have hget := ihG a s
        split
        next v s1 hres =>
          rw [hres] at hget
          exact readOut_comp env hget.1 hget.2 (ihR (k v) s1)
        next e s1 hres =>
          rw [hres] at hget
          exact hget
        next hres => exact trivial

/-- What the propagation path preserves of the engine state: it never
touches the computing context, the observer registry, the dependency
graph — and, for the notify-only routine, not the value store either. -/
def UpdKeep (s s1 : EngineState) : Prop :=
  s1.currentlyComputingAtom = s.currentlyComputingAtom ∧
  s1.subscriptions = s.subscriptions ∧
  s1.dependencies = s.dependencies ∧
  s1.atomPrimitiveValues = s.atomPrimitiveValues

theorem updKeep_refl (s : EngineState) : UpdKeep s s := ⟨rfl, rfl, rfl, rfl⟩

theorem updKeep_trans {s s1 s2 : EngineState} (h1 : UpdKeep s s1)
    (h2 : UpdKeep s1 s2) : UpdKeep s s2 :=
  ⟨h2.1.trans h1.1, h2.2.1.trans h1.2.1, h2.2.2.1.trans h1.2.2.1,
    h2.2.2.2.trans h1.2.2.2⟩

theorem fireSubs_spec (s : EngineState) (atom : AtomId) :
    UpdKeep s (fireSubs s atom) ∧
    (fireSubs s atom).firedLog = s.firedLog ++ subsOf s atom := by
  unfold fireSubs subsOf
  cases h : mapGet s.subscriptions atom with
  | none => exact ⟨updKeep_refl s, by simp⟩
  | some cbs => exact ⟨⟨rfl, rfl, rfl, rfl⟩, by simp⟩

/-- `updateReadonlyDerivedAtom` fires the atom's own callbacks first and
then only appends more notifications; the value store, dependency graph,
observer registry and computing context are untouched.
`updateDerivedList` likewise only appends notifications. -/
theorem updRO_main (fuel : Nat) (env : Env) :
    (∀ atom s s1, updateReadonlyDerivedAtom fuel env atom s = some s1 →
        UpdKeep s s1 ∧
        ∃ ext, s1.firedLog = s.firedLog ++ subsOf s atom ++ ext) ∧
    (∀ l s s1, updateDerivedList fuel env l s = some s1 →
        UpdKeep s s1 ∧ ∃ ext, s1.firedLog = s.firedLog ++ ext) := by
  induction fuel with
  | zero =>
    constructor
    · intro atom s s1 h
      exact absurd h (by simp [updateReadonlyDerivedAtom])
    · intro l s s1 h
      exact absurd h (by simp [updateDerivedList])
  | succ fuel ih =>
    obtain ⟨ihRO, ihL⟩ := ih
    constructor
    · intro atom s s1 h
      simp only [updateReadonlyDerivedAtom] at h
      obtain ⟨hk0, hl0⟩ := fireSubs_spec s atom
      split at h
      next hdep =>
        injection h with h
        subst h
        exact ⟨hk0, [], by simp [hl0]⟩
      next ds hdep =>
        obtain ⟨hk1, ext, hl1⟩ := ihL ds (fireSubs s atom) s1 h
        refine ⟨updKeep_trans hk0 hk1, ext, ?_⟩
        rw [hl1, hl0, List.append_assoc]
    · intro l s s1 h
      simp only [updateDerivedList] at h
      split at h
      next =>
        injection h with h
        subst h
        exact ⟨updKeep_refl s, [], by simp⟩
      next d rest =>
        split at h
        next => exact absurd h (by simp)
        next s2 hup =>
          obtain ⟨hk1, ext1, hl1⟩ := ihRO d s s2 hup
          obtain ⟨hk2, ext2, hl2⟩ := ihL rest s2 s1 h
          refine ⟨updKeep_trans hk1 hk2, subsOf s d ++ ext1 ++ ext2, ?_⟩
          rw [hl2, hl1]
          simp [List.append_assoc]

/-- `updatePrimitiveAtom` never touches the computing context, the
observer registry or the dependency graph. -/
theorem updPrim_pres (fuel : Nat) (env : Env) (atom : AtomId) (v : Value)
    (s s1 : EngineState) (h : updatePrimitiveAtom fuel env atom v s = some s1) :
    s1.currentlyComputingAtom = s.currentlyComputingAtom ∧
    s1.subscriptions = s.subscriptions ∧
    s1.dependencies = s.dependencies := by
  cases fuel with
  | zero => exact absurd h (by simp [updatePrimitiveAtom])
  | succ fuel =>
    simp only [updatePrimitiveAtom] at h
    obtain ⟨hk0, hl0⟩ :=
      fireSubs_spec { s with atomPrimitiveValues := mapSet s.atomPrimitiveValues atom v } atom
    split at h
    next hdep =>
      injection h with h
      subst h
      exact ⟨hk0.1, hk0.2.1, hk0.2.2.1⟩
    next ds hdep =>
      obtain ⟨hk1, _⟩ := (updRO_main fuel env).2 ds _ s1 h
      exact ⟨hk1.1.trans hk0.1, hk1.2.1.trans hk0.2.1, hk1.2.2.1.trans hk0.2.2.1⟩

/-- `updateAtom` never touches the computing context, the observer
registry or the dependency graph. -/
theorem updAtom_pres (fuel : Nat) (env : Env) (atom : AtomId) (v : Value)
    (s s1 : EngineState) (h : updateAtom fuel env atom v s = some s1) :
    s1.currentlyComputingAtom = s.currentlyComputingAtom ∧
    s1.subscriptions = s.subscriptions ∧
    s1.dependencies = s.dependencies := by
  cases fuel with
  | zero => exact absurd h (by simp [updateAtom])
  | succ fuel =>
    simp only [updateAtom] at h
    split at h
    next => exact updPrim_pres fuel env atom v s s1 h
    next =>
      obtain ⟨hk, _⟩ := (updRO_main fuel env).1 atom s s1 h
      exact ⟨hk.1, hk.2.1, hk.2.2.1⟩

theorem inv_of_eqs {env : Env} {s s1 : EngineState}
    (hd : s1.dependencies = s.dependencies)
    (hc : s1.currentlyComputingAtom = s.currentlyComputingAtom)
    (hv : Inv env s) : Inv env s1 := by
  refine ⟨?_, ?_⟩
  · intro c h
    exact hv.1 c (hc.symm.trans h)
  · intro a c h
    rw [hd] at h
    exact hv.2 a c h

/-- Joint postcondition of a write-handler run: the structural invariant
is preserved and the read-only error is never raised (handlers write
through `updateAtom`, which is total). -/
def WriteOut (env : Env) (s : EngineState) : Res Unit → Prop
| .ok _ s1 => Inv env s → Inv env s1
| .thrown e s1 => (Inv env s → Inv env s1) ∧ e ≠ JsError.readOnly
| .outOfFuel => True

theorem writeOut_comp (env : Env) {s s1 : EngineState} {r : Res Unit}
    (hi : Inv env s → Inv env s1) (h : WriteOut env s1 r) : WriteOut env s r := by
  cases r with
  | ok u s2 => exact fun hv => h (hi hv)
  | thrown e s2 => exact ⟨fun hv => h.1 (hi hv), h.2⟩
  | outOfFuel => exact trivial

theorem runWrite_out (fuel : Nat) (env : Env) :
    ∀ w s, WriteOut env s (runWrite fuel env w s) := by
  induction fuel with
  | zero => exact fun w s => trivial
  | succ fuel ih =>
    intro w s
    cases w with
    | done =>
      simp only [runWrite]
      exact fun hv => hv
    | getW a k =>
      simp only [runWrite]
      have hget := (readOut_main fuel env).1 a s
      split
      next v s1 hres =>
        rw [hres] at hget
        exact writeOut_comp env hget.2 (ih (k v) s1)
      next e s1 hres =>
        rw [hres] at hget
        exact ⟨hget.2.1, hget.2.2⟩
      next hres => exact trivial
    | setW a v k =>
      simp only [runWrite]
      split
      next hup => exact trivial
      next s1 hup =>
        have hpres := updAtom_pres fuel env a v s s1 hup
        exact writeOut_comp env (inv_of_eqs hpres.2.2 hpres.1) (ih k s1)

/-- Invariant preservation, with no constraint on the error thrown. -/
def InvOut (env : Env) (s : EngineState) : Res Unit → Prop
| .ok _ s1 => Inv env s → Inv env s1
| .thrown _ s1 => Inv env s → Inv env s1
| .outOfFuel => True

theorem resMap_readOut {env : Env} {s : EngineState} (f : Value → Value)
    {r : Res Value} (h : ReadOut env s r) : ReadOut env s (resMap f r) := by
  cases r with
  | ok v s1 => exact h
  | thrown e s1 => exact h
  | outOfFuel => exact trivial

theorem dispatchWrite_inv (fuel : Nat) (env : Env) (atom : AtomId)
    {s : EngineState} (r : Res Value) (hr : ReadOut env s r) :
    InvOut env s (dispatchWrite fuel env atom r) := by
  cases r with
  | outOfFuel => exact trivial
  | thrown e s1 => exact fun hv => hr.2.1 hv
  | ok v s1 =>
    simp only [dispatchWrite]
    split
    next rd w henv =>
      have hw := runWrite_out fuel env (w v) s1
      cases hrw : runWrite fuel env (w v) s1 with
      | ok u s2 =>
        rw [hrw] at hw
        exact fun hv => hw (hr.2 hv)
      | thrown e s2 =>
        rw [hrw] at hw
        exact fun hv => hw.1 (hr.2 hv)
      | outOfFuel => exact trivial
    next =>
      split
      next s2 hup =>
        have hpres := updAtom_pres fuel env atom v s1 s2 hup
        exact fun hv => inv_of_eqs hpres.2.2 hpres.1 (hr.2 hv)
      next hup => exact trivial
    next => exact fun hv => hr.2 hv

theorem setValue_inv (fuel : Nat) (env : Env) (atom : AtomId) (nv : NextValue)
    (s : EngineState) : InvOut env s (setValue fuel env atom nv s) := by
  cases fuel with
  | zero => exact trivial
  | succ fuel =>
    cases nv with
    | val v =>
      simp only [setValue]
      exact dispatchWrite_inv fuel env atom (.ok v s) ⟨keep_refl s, id⟩
    | fn f =>
      simp only [setValue]
      exact dispatchWrite_inv fuel env atom _
        (resMap_readOut f ((readOut_main fuel env).2.1 atom s))

/-- The engine states reachable from a fresh module by the external
operations: constructing a primitive atom, reading (`getSnapshot`),
writing (`setValue`), subscribing and unsubscribing. -/
inductive Reaches (env : Env) : EngineState → Prop where
| init : Reaches env initState
| construct (s : EngineState) (atom : AtomId) (v : Value) :
    env atom = AtomDef.primitive → Reaches env s →
    Reaches env (constructPrimitive s atom v)
| readOk (s : EngineState) (fuel : Nat) (atom : AtomId) (v : Value)
    (s1 : EngineState) : Reaches env s →
    getAtomValue fuel env atom s = .ok v s1 → Reaches env s1
| readThrown (s : EngineState) (fuel : Nat) (atom : AtomId) (e : JsError)
    (s1 : EngineState) : Reaches env s →
    getAtomValue fuel env atom s = .thrown e s1 → Reaches env s1
| writeOk (s : EngineState) (fuel : Nat) (atom : AtomId) (nv : NextValue)
    (s1 : EngineState) : Reaches env s →
    setValue fuel env atom nv s = .ok () s1 → Reaches env s1
| writeThrown (s : EngineState) (fuel : Nat) (atom : AtomId) (nv : NextValue)
    (e : JsError) (s1 : EngineState) : Reaches env s →
    setValue fuel env atom nv s = .thrown e s1 → Reaches env s1
| sub (s : EngineState) (atom : AtomId) (cb : CallbackId) :
    Reaches env s → Reaches env (subscribe s atom cb)
| unsub (s : EngineState) (atom : AtomId) (cb : CallbackId) :
    Reaches env s → Reaches env (unsubscribe s atom cb)

/-- Every reachable state satisfies the structural invariant. -/
theorem reaches_inv {env : Env} {s : EngineState} (h : Reaches env s) :
    Inv env s := by
  induction h with
  | init =>
    constructor
    · intro c hc
      exact absurd hc (by simp [initState])
    · intro a c hc
      exact absurd hc (by simp [depHas, mapGet, initState])
  | construct s0 atom v hprim hr ih => exact inv_of_eqs rfl rfl ih
  | readOk s0 fuel atom v s1 hr hg ih =>
    have hro := (readOut_main fuel env).2.1 atom s0
    rw [hg] at hro
    exact hro.2 ih
  | readThrown s0 fuel atom e s1 hr hg ih =>
    have hro := (readOut_main fuel env).2.1 atom s0
    rw [hg] at hro
    exact hro.2.1 ih
  | writeOk s0 fuel atom nv s1 hr hg ih =>
    have hro := setValue_inv fuel env atom nv s0
    rw [hg] at hro
    exact hro ih
  | writeThrown s0 fuel atom nv e s1 hr hg ih =>
    have hro := setValue_inv fuel env atom nv s0
    rw [hg] at hro
    exact hro ih
  | sub s0 atom cb hr ih => exact inv_of_eqs rfl rfl ih
  | unsub s0 atom cb hr ih => exact inv_of_eqs rfl rfl ih

section Scenarios

/-- Read function `(get) => get(0)` (the identity derivation). -/
def rdA1 : ReadExpr := .getA 0 (fun v => .pure v)

/-- Read function `(get) => get(1)`. -/
def rdA2 : ReadExpr := .getA 1 (fun v => .pure v)

/-- Read function `(get) => 0` (constant). -/
def rdZero : ReadExpr := .pure (.int 0)

/-- Atom 0 primitive; atom 1 derived from it; atom 2 derived from 1. -/
def envA : Env := fun a =>
  match a with
  | 0 => .primitive
  | 1 => .derived rdA1 none
  | 2 => .derived rdA2 none
  | _ => .primitive

/-- The state after constructing primitive atom 0 with value 7. -/
def sA : EngineState := constructPrimitive initState 0 (.int 7)

/-- `sA` after the edge `0 → 1` has been recorded. -/
def sAfn : EngineState := { sA with dependencies := [(0, [1])] }

/-- Write handler `(get, set, v) => set(1, v)`. -/
def wSet1 : Value → WriteExpr := fun v => .setW 1 v .done

/-- Write handler `(get, set, v) => set(0, 99)`. -/
def wSet99 : Value → WriteExpr := fun _ => .setW 0 (.int 99) .done

/-- Write handler `(get, set, v) => set(3, v)`. -/
def wSet3 : Value → WriteExpr := fun v => .setW 3 v .done

/-- Atom 0 primitive; atom 1 read-only derived; atoms 2, 3, 4 derived
with write handlers: 2 writes to read-only atom 1, 3 writes 99 to atom 0,
4 writes to atom 3 (which has its own handler). -/
def envB : Env := fun a =>
  match a with
  | 0 => .primitive
  | 1 => .derived rdA1 none
  | 2 => .derived rdZero (some wSet1)
  | 3 => .derived rdZero (some wSet99)
  | 4 => .derived rdZero (some wSet3)
  | _ => .primitive

/-- The state after constructing primitive atom 0 with value 1. -/
def sB : EngineState := constructPrimitive initState 0 (.int 1)

/-- Atom 0 is derived and its read function throws. -/
def envThrow : Env := fun a =>
  match a with
  | 0 => .derived (.throwE (.int 1)) none
  | _ => .primitive

/-- A state in the middle of computing derived atom 1. -/
def sCtx : EngineState := { initState with currentlyComputingAtom := some 1 }

/-- `sCtx` after the edge `0 → 1` has been recorded. -/
def sCtxAfter : EngineState := { sCtx with dependencies := [(0, [1])] }

/-- Source, two intermediate derivations, one diamond tip:
atom 3 reads atoms 1 and 2, which both read atom 0. -/
def envDiamond : Env := fun a =>
  match a with
  | 0 => .primitive
  | 1 => .derived (.getA 0 (fun v => .pure v)) none
  | 2 => .derived (.getA 0 (fun v => .pure v)) none
  | 3 => .derived (.getA 1 (fun _ => .getA 2 (fun v => .pure v))) none
  | _ => .primitive

/-- Construct the source with 0, subscribe callback 42 to the diamond tip,
then read the tip once so all four edges are recorded. -/
def sDiamond : EngineState :=
  stateAfter
    (getAtomValue 12 envDiamond 3
      (subscribe (constructPrimitive initState 0 (.int 0)) 3 42))
    initState

/-- Chain environment with abstract pure derivations `f` and `g`:
atom 1 is `f` of atom 0, atom 2 is `g` of atom 1. -/
def envChain (f g : Value → Value) : Env := fun a =>
  match a with
  | 0 => .primitive
  | 1 => .derived (.getA 0 (fun v => .pure (f v))) none
  | 2 => .derived (.getA 1 (fun v => .pure (g v))) none
  | _ => .primitive

/-- The callback-5-on-atom-1 subscription state used to witness
notification claims. -/
def sSub : EngineState := subscribe sA 1 5

/-- `sSub` after atom 1's callbacks fired once. -/
def sSubAfter : EngineState := { sSub with firedLog := [5] }

end Scenarios

/-- C1: for a source cell 0, a derived cell 1 computing `f` of cell 0 and
a derived cell 2 computing `g` of cell 1, after `write(0, v)` a read of
cell 1 returns `f v` and a read of cell 2 returns `g (f v)`, for every
pure `f`, `g`, written value `v` and initial value `v0`. -/
theorem claim_c1_write_source_then_read_derived (f g : Value → Value)
    (v v0 : Value) :
    (resState (setValue 9 (envChain f g) 0 (.val v)
        (constructPrimitive initState 0 v0))).bind
      (fun s1 => resValue (getAtomValue 9 (envChain f g) 1 s1)) = some (f v) ∧
    (resState (setValue 9 (envChain f g) 0 (.val v)
        (constructPrimitive initState 0 v0))).bind
      (fun s1 => resValue (getAtomValue 9 (envChain f g) 2 s1)) = some (g (f v)) :=
  ⟨rfl, rfl⟩

/-- C4: in the diamond `3 reads 1 and 2, both read 0`, with callback 42
subscribed to the tip 3 and all edges recorded, one `write(0, 5)` fires
callback 42 exactly twice — once per incoming path, no deduplication. -/
theorem claim_c4_diamond_double_notification :
    subsOf sDiamond 3 = [42] ∧
    sDiamond.firedLog = [] ∧
    (resState (setValue 12 envDiamond 0 (.val (.int 5)) sDiamond)).map
      EngineState.firedLog = some [42, 42] := by
  decide

/-- C5: `updateReadonlyDerivedAtom` fires the atom's own registered
callbacks first, then at most appends further notifications from the
recursion into dependents; the value store, the dependency graph, the
observer registry and the computing context are exactly unchanged — in
particular no value-store entry for a derived cell is ever created, and
its value is not computed during propagation. -/
theorem claim_c5_notify_without_recompute (fuel : Nat) (env : Env)
    (atom : AtomId) (s s1 : EngineState)
    (h : updateReadonlyDerivedAtom fuel env atom s = some s1) :
    s1.atomPrimitiveValues = s.atomPrimitiveValues ∧
    s1.dependencies = s.dependencies ∧
    s1.subscriptions = s.subscriptions ∧
    s1.currentlyComputingAtom = s.currentlyComputingAtom ∧
    ∃ ext, s1.firedLog = s.firedLog ++ subsOf s atom ++ ext := by
  obtain ⟨hk, hext⟩ := (updRO_main fuel env).1 atom s s1 h
  exact ⟨hk.2.2.2, hk.2.2.1, hk.2.1, hk.1, hext⟩

theorem claim_c5_witness :
    sSubAfter.atomPrimitiveValues = sSub.atomPrimitiveValues ∧
    sSubAfter.dependencies = sSub.dependencies ∧
    sSubAfter.subscriptions = sSub.subscriptions ∧
    sSubAfter.currentlyComputingAtom = sSub.currentlyComputingAtom ∧
    ∃ ext, sSubAfter.firedLog = sSub.firedLog ++ subsOf sSub 1 ++ ext :=
  claim_c5_notify_without_recompute 3 envA 1 sSub sSubAfter (by decide)

/-- C6: reading a derived cell runs its read function with the computing
context set to that cell, and unconditionally restores the saved context —
after any `getAtomValue` call, on the normal return path and on the error
path alike, the computing context equals its value before the call. -/
theorem claim_c6_context_save_restore :
    (∀ (fuel : Nat) (env : Env) (atom : AtomId) (rd : ReadExpr)
        (w : Option (Value → WriteExpr)) (s : EngineState),
        env atom = AtomDef.derived rd w →
        getAtomValue (fuel + 1) env atom s =
          restoreRes s.currentlyComputingAtom
            (runRead fuel env rd { s with currentlyComputingAtom := some atom })) ∧
    (∀ (fuel : Nat) (env : Env) (atom : AtomId) (s : EngineState),
        ctxAfter (getAtomValue fuel env atom s) s.currentlyComputingAtom =
          s.currentlyComputingAtom) := by
  constructor
  · intro fuel env atom rd w s h
    simp only [getAtomValue]
    split
    next hprim =>
      rw [h] at hprim
      exact absurd hprim (by simp)
    next rd2 w2 henv =>
      have h2 := h.symm.trans henv
      injection h2 with e1 e2
      subst e1
      split
      next v s1 heq =>
        rw [heq]
        rfl
      next e s1 heq =>
        rw [heq]
        rfl
      next heq =>
        rw [heq]
        rfl
  · intro fuel env atom s
    cases fuel with
    | zero => rfl
    | succ fuel =>
      simp only [getAtomValue]
      split
      · rfl
      next rd w henv =>
        split
        next v s1 heq => rfl
        next e s1 heq => rfl
        next heq => rfl

theorem claim_c6_witness :
    getAtomValue 3 envA 1 sA =
      restoreRes none (runRead 2 envA rdA1
        { sA with currentlyComputingAtom := some 1 }) :=
  claim_c6_context_save_restore.1 2 envA 1 rdA1 none sA rfl

/-- C9: the setter handed to write handlers (`updateAtom`), applied to any
derived cell, is exactly the notify-only routine: the supplied value is
discarded, the target's own write handler (when present) is not invoked,
and the value store is unchanged. -/
theorem claim_c9_setter_discards_value_for_derived (fuel : Nat) (env : Env)
    (atom : AtomId) (rd : ReadExpr) (w : Option (Value → WriteExpr))
    (v : Value) (s : EngineState) (h : env atom = AtomDef.derived rd w) :
    updateAtom (fuel + 1) env atom v s =
      updateReadonlyDerivedAtom fuel env atom s ∧
    ∀ s1, updateAtom (fuel + 1) env atom v s = some s1 →
      s1.atomPrimitiveValues = s.atomPrimitiveValues := by
  have heq : updateAtom (fuel + 1) env atom v s =
      updateReadonlyDerivedAtom fuel env atom s := by
    simp only [updateAtom]
    rw [h]
  refine ⟨heq, ?_⟩
  intro s1 h1
  rw [heq] at h1
  exact ((updRO_main fuel env).1 atom s s1 h1).1.2.2.2

theorem claim_c9_witness :
    updateAtom 4 envB 3 (.int 5) sB = updateReadonlyDerivedAtom 3 envB 3 sB ∧
    sB.atomPrimitiveValues = sB.atomPrimitiveValues :=
  ⟨(claim_c9_setter_discards_value_for_derived 3 envB 3 rdZero (some wSet99)
      (.int 5) sB rfl).1,
   (claim_c9_setter_discards_value_for_derived 3 envB 3 rdZero (some wSet99)
      (.int 5) sB rfl).2 sB (by decide)⟩

/-- C10: while derived cell `c` is being computed, the tracked read of
`atom` records the edge `atom → c` before resolving `atom`; so even when
resolving `atom` throws, the edge is present in the state at the throw
point. -/
theorem claim_c10_edge_recorded_before_resolution (fuel : Nat) (env : Env)
    (atom : AtomId) (s : EngineState) (c : AtomId) (e : JsError)
    (s1 : EngineState) (hctx : s.currentlyComputingAtom = some c)
    (h : get (fuel + 1) env atom s = .thrown e s1) :
    depHas s1.dependencies atom c = true := by
  simp only [get] at h
  split at h
  next c2 hctx2 =>
    rw [hctx] at hctx2
    injection hctx2 with hc
    subst hc
    have hread := (readOut_main fuel env).2.1 atom
      { s with dependencies := depAdd s.dependencies atom c }
    rw [h] at hread
    exact hread.1.2.2.2.2 atom c (depHas_depAdd_self _ _ _)
  next hctx2 =>
    rw [hctx] at hctx2
    exact absurd hctx2 (by simp)

theorem claim_c10_witness : depHas sCtxAfter.dependencies 0 1 = true :=
  claim_c10_edge_recorded_before_resolution 2 envThrow 0 sCtx 1
    (.userError (.int 1)) sCtxAfter rfl (by decide)

/-- C2 fails on the code: in `envB`, atom 2's handler writes to read-only
derived atom 1 and the external write to atom 2 returns normally, while an
external write to atom 1 throws the read-only error — so handler-issued
writes are not the external write entry point; and atom 4's handler writes
to atom 3, whose own handler (which would set atom 0 to 99) is not
invoked: the state is unchanged. -/
theorem claim_c2_counterexample :
    setValue 6 envB 2 (.val (.int 5)) sB = .ok () sB ∧
    setValue 6 envB 4 (.val (.int 5)) sB = .ok () sB ∧
    setValue 6 envB 1 (.val (.int 5)) sB = .thrown .readOnly sB := by
  decide

/-- C2 amended: a write to a derived cell with a write handler invokes the
handler with the supplied value, but the setter the handler receives is
`updateAtom`, not the external write gateway: a handler run never raises
the read-only error, whatever cells it writes to. -/
theorem claim_c2_amended :
    (∀ (fuel : Nat) (env : Env) (atom : AtomId) (rd : ReadExpr)
        (w : Value → WriteExpr) (v : Value) (s : EngineState),
        env atom = AtomDef.derived rd (some w) →
        setValue (fuel + 1) env atom (.val v) s = runWrite fuel env (w v) s) ∧
    (∀ (fuel : Nat) (env : Env) (w : WriteExpr) (s s1 : EngineState)
        (e : JsError),
        runWrite fuel env w s = .thrown e s1 → e ≠ JsError.readOnly) := by
  constructor
  · intro fuel env atom rd w v s h
    simp only [setValue, dispatchWrite]
    rw [h]
  · intro fuel env w s s1 e h
    have hw := runWrite_out fuel env w s
    rw [h] at hw
    exact hw.2

theorem claim_c2_witness :
    setValue 6 envB 2 (.val (.int 7)) sB = runWrite 5 envB (wSet1 (.int 7)) sB ∧
    JsError.userError (.int 1) ≠ JsError.readOnly :=
  ⟨claim_c2_amended.1 5 envB 2 rdZero wSet1 (.int 7) sB rfl,
   claim_c2_amended.2 4 envThrow (.getW 0 (fun _ => .done)) sB sB
     (.userError (.int 1)) (by decide)⟩

/-- C3 fails on the code: writing to the read-only derived atom 1 with an
updater function first resolves the current value via a tracked read,
which records the edge `0 → 1` in the dependency graph before the
read-only error is thrown — the graph at the throw point differs from the
graph before the call. -/
theorem claim_c3_counterexample :
    (resThrown (setValue 5 envA 1 (.fn (fun v => v)) sA)).map
        (fun p => (p.1, p.2.dependencies)) =
      some (JsError.readOnly, [(0, [1])]) ∧
    sA.dependencies = [] := by
  decide

/-- C3 amended: a write to a derived cell without a write handler raises
the read-only error synchronously; with a plain-value argument the state
is exactly unchanged; with an updater argument, whenever the call throws,
the value store, the observer registry, the callback log and the computing
context are unchanged, and the dependency graph at most gains the edges
recorded while resolving the cell's current value. -/
theorem claim_c3_amended :
    (∀ (fuel : Nat) (env : Env) (atom : AtomId) (rd : ReadExpr) (v : Value)
        (s : EngineState),
        env atom = AtomDef.derived rd none →
        setValue (fuel + 1) env atom (.val v) s = .thrown .readOnly s) ∧
    (∀ (fuel : Nat) (env : Env) (atom : AtomId) (rd : ReadExpr)
        (f : Value → Value) (s : EngineState) (e : JsError) (s1 : EngineState),
        env atom = AtomDef.derived rd none →
        setValue fuel env atom (.fn f) s = .thrown e s1 →
        s1.atomPrimitiveValues = s.atomPrimitiveValues ∧
        s1.subscriptions = s.subscriptions ∧
        s1.firedLog = s.firedLog ∧
        s1.currentlyComputingAtom = s.currentlyComputingAtom ∧
        ∀ a c, depHas s.dependencies a c = true →
          depHas s1.dependencies a c = true) := by
  constructor
  · intro fuel env atom rd v s h
    simp only [setValue, dispatchWrite]
    rw [h]
  · intro fuel env atom rd f s e s1 h hrun
    cases fuel with
    | zero => exact absurd hrun (by simp [setValue])
    | succ fuel =>
      simp only [setValue] at hrun
      have hread := (readOut_main fuel env).2.1 atom s
      cases hg : getAtomValue fuel env atom s with
      | ok v s2 =>
        rw [hg] at hrun hread
        simp only [resMap, dispatchWrite] at hrun
        split at hrun
        next henv =>
          rw [h] at henv
          exact absurd henv (by simp)
        next henv =>
          rw [h] at henv
          exact absurd henv (by simp)
        next henv =>
          injection hrun with he hs
          subst hs
          obtain ⟨k1, k2, k3, k4, k5⟩ := hread.1
          exact ⟨k3, k2, k4, k1, k5⟩
      | thrown e2 s2 =>
        rw [hg] at hrun hread
        simp only [resMap, dispatchWrite] at hrun
        injection hrun with he hs
        subst hs
        obtain ⟨k1, k2, k3, k4, k5⟩ := hread.1
        exact ⟨k3, k2, k4, k1, k5⟩
      | outOfFuel =>
        rw [hg] at hrun
        simp only [resMap, dispatchWrite] at hrun
        exact absurd hrun (by simp)

theorem claim_c3_witness :
    setValue 4 envA 1 (.val (.int 3)) sA = .thrown .readOnly sA ∧
    sAfn.atomPrimitiveValues = sA.atomPrimitiveValues :=
  ⟨claim_c3_amended.1 3 envA 1 rdA1 (.int 3) sA rfl,
   (claim_c3_amended.2 5 envA 1 rdA1 (fun v => v) sA .readOnly sAfn rfl
     (by decide)).1⟩

/-- C7 fails on the code: the untracked snapshot read of derived atom 1
in a fresh state records the edge `0 → 1` while evaluating atom 1's read
function, so the dependency graph after the call differs from the graph
before it. -/
theorem claim_c7_counterexample :
    (stateAfter (getAtomValue 5 envA 1 sA) sA).dependencies = [(0, [1])] ∧
    sA.dependencies = [] := by
  decide

/-- C7 amended: the untracked snapshot read records no edge attributed to
the caller: for a source cell it returns the stored value with the state
(in particular the dependency graph) exactly unchanged; for a derived
cell the evaluation of its read function may record new edges, but the
graph only ever grows — every edge present before the call is present
after it. -/
theorem claim_c7_amended :
    (∀ (fuel : Nat) (env : Env) (atom : AtomId) (s : EngineState),
        env atom = AtomDef.primitive →
        getAtomValue (fuel + 1) env atom s =
          .ok ((mapGet s.atomPrimitiveValues atom).getD .undef) s) ∧
    (∀ (fuel : Nat) (env : Env) (atom : AtomId) (s : EngineState)
        (a c : AtomId),
        depHas s.dependencies a c = true →
        depHas (stateAfter (getAtomValue fuel env atom s) s).dependencies
          a c = true) := by
  constructor
  · intro fuel env atom s h
    simp only [getAtomValue]
    rw [h]
  · intro fuel env atom s a c hd
    have hread := (readOut_main fuel env).2.1 atom s
    cases hg : getAtomValue fuel env atom s with
    | ok v s1 =>
      rw [hg] at hread
      exact hread.1.2.2.2.2 a c hd
    | thrown e s1 =>
      rw [hg] at hread
      exact hread.1.2.2.2.2 a c hd
    | outOfFuel => exact hd

theorem claim_c7_witness :
    getAtomValue 1 envA 0 sA =
      .ok ((mapGet sA.atomPrimitiveValues 0).getD .undef) sA ∧
    depHas (stateAfter (getAtomValue 5 envA 1 sAfn) sAfn).dependencies
      0 1 = true :=
  ⟨claim_c7_amended.1 0 envA 0 sA rfl,
   claim_c7_amended.2 5 envA 1 sAfn 0 1 (by decide)⟩

/-- C8: in every state reachable by construction, read, write, subscribe
and unsubscribe operations, every dependent recorded in the dependency
graph is a derived cell — no source cell ever appears in a dependent
set. -/
theorem claim_c8_dependents_are_derived (env : Env) (s : EngineState)
    (h : Reaches env s) (a c : AtomId)
    (hd : depHas s.dependencies a c = true) : (env c).isDerived = true :=
  (reaches_inv h).2 a c hd

theorem claim_c8_witness : (envA 1).isDerived = true :=
  claim_c8_dependents_are_derived envA sAfn
    (Reaches.readOk sA 5 1 (.int 7) sAfn
      (Reaches.construct initState 0 (.int 7) rfl Reaches.init) (by decide))
    0 1 (by decide)

end Jotai
